import Mathlib

/-!
Verification of the distributed ghost-exchange (scatter) layer of
`cuda/test_scatterer.py`.

The plan-building section of the script (lines 78-148) is embedded as pure
Lean functions on an `IndexMap` record.  numpy library calls are modelled
from their documented semantics: `np.unique` returns the sorted distinct
values (with per-value counts), `np.cumsum`/`np.insert(·, 0, 0)` is a scan,
and `np.argsort` (default `kind='quicksort'`, documented as NOT stable) is
modelled relationally: any permutation of the positions that makes the key
sequence nondecreasing is an admissible result.

The `scatterer` module itself (`scatter_forward` / `scatter_reverse`) is not
part of the repository sources available here; where a claim depends on it,
a model is built from the specification text and marked as such.
-/

/-- Model of a dolfinx `IndexMap` as consumed by the script:
`size_local` (= `imap.size_local`), `local_range0` (= `imap.local_range[0]`),
`ghosts` (= `imap.ghosts`, global indices of ghost slots),
`owners` (= `imap.owners`, owning rank of each ghost slot), and
`dest_ranks` (= `imap.index_to_dest_ranks()`, adjacency list giving for each
locally owned index the ranks that ghost it). -/
structure IndexMap where
  size_local : ℕ
  local_range0 : ℤ
  ghosts : List ℤ
  owners : List ℕ
  dest_ranks : List (List ℕ)
deriving DecidableEq

instance : Inhabited IndexMap := ⟨⟨0, 0, [], [], []⟩⟩

/-- Basic well-formedness of an `IndexMap`: one owner entry per ghost slot. -/
def IndexMap.WF (m : IndexMap) : Prop := m.owners.length = m.ghosts.length

/-- Model of `np.unique(l)`: the sorted list of distinct values of `l`. -/
def npUnique (l : List ℕ) : List ℕ :=
  (l.insertionSort (· ≤ ·)).dedup

/-- Model of the `return_counts=True` component of `np.unique`:
the number of occurrences of each distinct value, in sorted value order. -/
def npCounts (l : List ℕ) : List ℕ :=
  (npUnique l).map (fun v => l.count v)

/-- Model of `np.insert(np.cumsum(sizes), 0, 0)`: the exclusive prefix sums
`[0, s₀, s₀+s₁, …]`. -/
def npOffsets (sizes : List ℕ) : List ℕ :=
  sizes.scanl (· + ·) 0

/-- Model of the contract of `np.argsort(a)` (default `kind='quicksort'`):
`p` is an admissible result iff it is a permutation of the positions
`0..a.length-1` along which `a` is nondecreasing.  numpy documents the
default kind as not stable, so no tie-breaking order is guaranteed. -/
def IsArgsort (a : List ℕ) (p : List ℕ) : Prop :=
  p.Perm (List.range a.length) ∧
    (p.map (fun i => a.getD i 0)).Sorted (· ≤ ·)

instance (a p : List ℕ) : Decidable (IsArgsort a p) := by
  unfold IsArgsort; infer_instance

/-- `unique_owners, owners_size = np.unique(owners, return_counts=True)`
(first component). -/
def unique_owners (m : IndexMap) : List ℕ := npUnique m.owners

/-- `unique_owners, owners_size = np.unique(owners, return_counts=True)`
(second component). -/
def owners_size (m : IndexMap) : List ℕ := npCounts m.owners

/-- `owners_offsets = np.insert(np.cumsum(owners_size), 0, 0)`. -/
def owners_offsets (m : IndexMap) : List ℕ := npOffsets (owners_size m)

/-- `shared_ranks = np.unique(shared_dofs.array)`: `shared_dofs.array` is the
flattened adjacency array of `index_to_dest_ranks()`. -/
def shared_ranks (m : IndexMap) : List ℕ := npUnique m.dest_ranks.flatten

/-- The `ghosts` list built by the double loop
`for shared_rank in shared_ranks: for dof in range(nlocal):
if shared_rank in shared_dofs.links(dof): ghosts.append(shared_rank)`. -/
def ghostsList (m : IndexMap) : List ℕ :=
  (shared_ranks m).flatMap (fun r =>
    ((List.range m.size_local).filter
      (fun dof => decide (r ∈ m.dest_ranks.getD dof []))).map (fun _ => r))

/-- `unique_ghosts, ghosts_size = np.unique(ghosts, return_counts=True)`
(first component). -/
def unique_ghosts (m : IndexMap) : List ℕ := npUnique (ghostsList m)

/-- `unique_ghosts, ghosts_size = np.unique(ghosts, return_counts=True)`
(second component). -/
def ghosts_size (m : IndexMap) : List ℕ := npCounts (ghostsList m)

/-- `ghosts_offsets = np.insert(np.cumsum(ghosts_size), 0, 0)`. -/
def ghosts_offsets (m : IndexMap) : List ℕ := npOffsets (ghosts_size m)

/-- Python slice `l[b:e]` for `0 ≤ b ≤ e`. -/
def pySlice (l : List α) (b e : ℕ) : List α :=
  (l.take e).drop b

/-- `send_buff_idx[i] = imap.ghosts[owners_idx[begin:end]]` where
`begin = owners_offsets[i]`, `end = owners_offsets[i+1]` and `p` is the
`np.argsort(owners)` result `owners_idx`. -/
def send_buff_idx (m : IndexMap) (p : List ℕ) (i : ℕ) : List ℤ :=
  (pySlice p ((owners_offsets m).getD i 0) ((owners_offsets m).getD (i + 1) 0)).map
    (fun j => m.ghosts.getD j 0)

/-- The full list-of-buffers form of `send_buff_idx`. -/
def send_buff_idx_all (m : IndexMap) (p : List ℕ) : List (List ℤ) :=
  (List.range (unique_owners m).length).map (send_buff_idx m p)

/-- `ghosts_idx = recv_buff_idx - imap.local_range[0]` (elementwise int64
subtraction, no bounds check). -/
def ghosts_idx (recv_buff_idx : List ℤ) (local_range0 : ℤ) : List ℤ :=
  recv_buff_idx.map (fun g => g - local_range0)

/-- The full plan produced by the build section (lines 78-148): groupings,
sizes, offsets and permutations for both directions.  `p` stands for the
`np.argsort(owners)` result (`owners_idx`). -/
structure Plan where
  unique_owners : List ℕ
  owners_size : List ℕ
  owners_offsets : List ℕ
  owners_idx : List ℕ
  send_buff_idx : List (List ℤ)
  unique_ghosts : List ℕ
  ghosts_size : List ℕ
  ghosts_offsets : List ℕ
deriving DecidableEq

/-- The plan-build step as a single function of the `IndexMap` (and of the
`np.argsort` result it contains). -/
def buildPlan (m : IndexMap) (p : List ℕ) : Plan :=
  { unique_owners := unique_owners m
    owners_size := owners_size m
    owners_offsets := owners_offsets m
    owners_idx := p
    send_buff_idx := send_buff_idx_all m p
    unique_ghosts := unique_ghosts m
    ghosts_size := ghosts_size m
    ghosts_offsets := ghosts_offsets m }

/-- Communication events of the build section.  `postRecv src b e` is the
non-blocking `comm.Irecv(recv_buff_idx_d[b:e], source=src)`; `waitAll` is
`MPI.Request.Waitall(all_requests)`. -/
inductive Event where
  | postRecv (src : ℕ) (b : ℕ) (e : ℕ)
  | waitAll
deriving DecidableEq

/-- The communication trace of the build section, in program order.  The
send loop over `unique_owners` posts nothing: the `comm.Isend` line is
commented out in the source, so the loop body only prints.  The receive
loop posts one `Irecv` per entry of `unique_ghosts`, and the single
`Waitall` follows all of them. -/
def exchangeTrace (m : IndexMap) : List Event :=
  ((List.range (unique_ghosts m).length).map (fun i =>
    Event.postRecv ((unique_ghosts m).getD i 0)
      ((ghosts_offsets m).getD i 0) ((ghosts_offsets m).getD (i + 1) 0)))
  ++ [Event.waitAll]

/-- One work-item of the `copy_range` CUDA kernel:
`idx = threadIdx.x + blockIdx.x * blockDim.x`; if `idx < end - begin` then
`out_[idx] = in_[idx + begin]`, otherwise no write.  Device buffers are
modelled as total maps `ℕ → α`; `idx ≥ 0` always, so truncated natural
subtraction `e - b` agrees with the Python `end - begin` comparison. -/
def copy_range (in_ out_ : ℕ → α) (b e : ℕ)
    (blockDim thread_id block_id : ℕ) : ℕ → α :=
  let idx := thread_id + block_id * blockDim
  if idx < e - b then Function.update out_ idx (in_ (idx + b)) else out_

/-- Modelled from the spec: the per-rank data of a distributed value vector.
The `scatterer` module providing `scatter_forward`/`scatter_reverse` is only
imported by the script and is not among the repository sources here, so the
exchanger facade is modelled from §3/§4.4 of the specification.
`buf` is the flat ValueBuffer (owned indices first, ghost slots appended);
`range0` is the global offset of the contiguous owned block; `ghosts` and
`owners` give each ghost slot's global index and owning rank. -/
@[ext]
structure RankData (α : Type) where
  size_local : ℕ
  range0 : ℕ
  ghosts : List ℕ
  owners : List ℕ
  buf : List α
deriving DecidableEq

/-- A world: one `RankData` per rank, the rank id being the list position. -/
abbrev World (α : Type) : Type := List (RankData α)

/-- The out-of-range placeholder rank (empty buffer, no owned data). -/
def dfltRank {α : Type} [Zero α] : RankData α := ⟨0, 0, [], [], []⟩

/-- Modelled from the spec: the value a rank's buffer position `i` holds
after `scatter_forward` — owned positions keep their value, ghost slot `k`
(position `size_local + k`) receives the owning rank's authoritative value
at local position `ghosts[k] - range0(owner)`. -/
def fwdVal [Zero α] (W : World α) (rd : RankData α) (i : ℕ) : α :=
  if i < rd.size_local then rd.buf.getD i 0
  else if i - rd.size_local < rd.ghosts.length then
    (W.getD (rd.owners.getD (i - rd.size_local) 0) dfltRank).buf.getD
      (rd.ghosts.getD (i - rd.size_local) 0 -
        (W.getD (rd.owners.getD (i - rd.size_local) 0) dfltRank).range0) 0
  else rd.buf.getD i 0

/-- Modelled from the spec: the whole buffer of one rank after the forward
direction. -/
def fwdRank [Zero α] (W : World α) (rd : RankData α) : RankData α :=
  { rd with buf := (List.range rd.buf.length).map (fwdVal W rd) }

/-- Modelled from the spec: `scatter_forward(plan, buffer)` — owner → ghost
direction; authoritative owned values overwrite every ghost slot that
references them; owned values are untouched. -/
def scatter_forward [Zero α] (W : World α) : World α :=
  W.map (fwdRank W)

/-- Modelled from the spec: the total contribution received by rank `rid`
for global index `g` in the reverse direction: the sum over all ranks of
the ghost-slot values whose ghost metadata names `(rid, g)`. -/
def revContrib [AddCommMonoid α] (W : World α) (rid : ℕ) (g : ℕ) : α :=
  (W.map (fun sd =>
    ((List.range sd.ghosts.length).map (fun k =>
      if sd.owners.getD k 0 = rid ∧ sd.ghosts.getD k 0 = g then
        sd.buf.getD (sd.size_local + k) 0
      else 0)).sum)).sum

/-- Modelled from the spec: the value rank `rid`'s buffer position `i` holds
after `scatter_reverse` with the spec's example sum reduction — each owned
slot accumulates the ghost copies held elsewhere; ghost slots are untouched. -/
def revVal [AddCommMonoid α] (W : World α) (rd : RankData α) (rid i : ℕ) : α :=
  if i < rd.size_local then rd.buf.getD i 0 + revContrib W rid (rd.range0 + i)
  else rd.buf.getD i 0

/-- Modelled from the spec: the whole buffer of rank `rid` after the reverse
direction. -/
def revRank [AddCommMonoid α] (W : World α) (rid : ℕ) (rd : RankData α) : RankData α :=
  { rd with buf := (List.range rd.buf.length).map (revVal W rd rid) }

/-- Modelled from the spec: `scatter_reverse(plan, buffer)` — ghost → owner
accumulation direction, with the sum reduction the spec gives as its
example (`combined (reduction, e.g. sum) into the owned slot`). -/
def scatter_reverse [AddCommMonoid α] (W : World α) : World α :=
  W.enum.map (fun ri => revRank W ri.1 ri.2)

/-- Well-formedness needed by the forward direction (the spec's symmetry
invariant restricted to what forward reads): every ghost slot's global index
falls inside its owning rank's owned block. -/
def FwdWF [Zero α] (W : World α) : Prop :=
  ∀ rd ∈ W, ∀ k < rd.ghosts.length,
    rd.ghosts.getD k 0 - (W.getD (rd.owners.getD k 0) dfltRank).range0 <
      (W.getD (rd.owners.getD k 0) dfltRank).size_local

instance [Zero α] [DecidableEq α] (W : World α) : Decidable (FwdWF W) := by
  unfold FwdWF; infer_instance

/-- Cutting a list into consecutive blocks of the given lengths. -/
def slicesBy (q : List α) : List ℕ → List (List α)
  | [] => []
  | c :: cs => q.take c :: slicesBy (q.drop c) cs

/-- The canonical owner-grouped form of a rank list: one block of repeated
values per distinct value, in increasing value order. -/
def groupedOf (l : List ℕ) : List (List ℕ) :=
  (npUnique l).map (fun v => List.replicate (l.count v) v)

/-- The stability tie-break the spec ascribes to the owner sort: positions
holding equal owner ranks appear in their original ghost-slot order. -/
def StableByOwner (a p : List ℕ) : Prop :=
  ∀ j < p.length, ∀ k < p.length, j < k →
    a.getD (p.getD j 0) 0 = a.getD (p.getD k 0) 0 →
    p.getD j 0 < p.getD k 0

instance (a p : List ℕ) : Decidable (StableByOwner a p) := by
  unfold StableByOwner; infer_instance

/-- The spec's cross-rank symmetry invariant on a world of index maps: every
ghost slot's declared owner itself reports the corresponding local index as
ghosted by this rank (via `index_to_dest_ranks`). -/
def SymmetricMaps (ms : List IndexMap) : Prop :=
  ∀ r < ms.length, ∀ k < (ms.getD r default).owners.length,
    r ∈ (ms.getD ((ms.getD r default).owners.getD k 0) default).dest_ranks.getD
      ((ms.getD r default).ghosts.getD k 0 -
        (ms.getD ((ms.getD r default).owners.getD k 0) default).local_range0).toNat []

instance (ms : List IndexMap) : Decidable (SymmetricMaps ms) := by
  unfold SymmetricMaps; infer_instance

/-- The total number of (local index, destination rank) pairs recorded by
`index_to_dest_ranks`: for each locally owned index, the number of distinct
ranks that ghost it. -/
def total_pairs (m : IndexMap) : ℕ :=
  ((List.range m.size_local).map
    (fun dof => (m.dest_ranks.getD dof []).dedup.length)).sum


/-! ## Library facts about the numpy models -/

theorem npUnique_nodup (l : List ℕ) : (npUnique l).Nodup :=
  List.nodup_dedup _

theorem mem_npUnique {v : ℕ} {l : List ℕ} : v ∈ npUnique l ↔ v ∈ l := by
  unfold npUnique
  rw [List.mem_dedup]
  exact (List.perm_insertionSort _ l).mem_iff

theorem npUnique_sorted (l : List ℕ) : (npUnique l).Sorted (· ≤ ·) :=
  List.Pairwise.sublist (List.dedup_sublist _) (List.sorted_insertionSort _ l)

theorem npUnique_perm_dedup (l : List ℕ) : (npUnique l).Perm l.dedup :=
  (List.perm_ext_iff_of_nodup (npUnique_nodup l) (List.nodup_dedup l)).mpr
    (fun a => mem_npUnique.trans (List.mem_dedup).symm)

theorem npCounts_sum (l : List ℕ) : (npCounts l).sum = l.length := by
  unfold npCounts
  rw [((npUnique_perm_dedup l).map (fun v => l.count v)).sum_eq]
  exact List.sum_map_count_dedup_eq_length l

theorem npCounts_length (l : List ℕ) : (npCounts l).length = (npUnique l).length :=
  List.length_map _ _

theorem scanl_add_getD (cs : List ℕ) (a : ℕ) :
    ∀ i ≤ cs.length, (cs.scanl (· + ·) a).getD i 0 = a + (cs.take i).sum := by
  induction cs generalizing a with
  | nil =>
    intro i hi
    have : i = 0 := Nat.le_zero.mp hi
    subst this
    simp [List.scanl]
  | cons c cs ih =>
    intro i hi
    cases i with
    | zero => simp [List.scanl]
    | succ i =>
      simp only [List.scanl, List.getD_cons_succ, List.take_succ_cons, List.sum_cons]
      rw [ih (a + c) i (by simpa using hi)]
      omega

theorem npOffsets_getD (sizes : List ℕ) {i : ℕ} (hi : i ≤ sizes.length) :
    (npOffsets sizes).getD i 0 = (sizes.take i).sum := by
  simpa using scanl_add_getD sizes 0 i hi

theorem npOffsets_last (sizes : List ℕ) :
    (npOffsets sizes).getD sizes.length 0 = sizes.sum := by
  rw [npOffsets_getD sizes le_rfl, List.take_length]

/-! ## Slicing lemmas -/

theorem length_slicesBy (q : List α) (cs : List ℕ) :
    (slicesBy q cs).length = cs.length := by
  induction cs generalizing q with
  | nil => rfl
  | cons c cs ih => simp [slicesBy, ih]

theorem flatten_slicesBy (cs : List ℕ) (q : List α) (h : cs.sum = q.length) :
    (slicesBy q cs).flatten = q := by
  induction cs generalizing q with
  | nil =>
    have hq : q.length = 0 := by simpa using h.symm
    have : q = [] := List.eq_nil_of_length_eq_zero hq
    simp [slicesBy, this]
  | cons c cs ih =>
    have h' : c + cs.sum = q.length := by simpa using h
    simp only [slicesBy, List.flatten_cons]
    rw [ih (q.drop c) (by simp; omega)]
    exact List.take_append_drop c q

theorem pySlice_add (q : List α) (c x y : ℕ) :
    pySlice q (c + x) (c + y) = pySlice (q.drop c) x y := by
  unfold pySlice
  rw [List.drop_take, List.drop_take, Nat.add_sub_add_left,
    ← List.drop_drop, List.drop_drop]

theorem pySlice_zero (q : List α) (e : ℕ) : pySlice q 0 e = q.take e := by
  simp [pySlice]

theorem slicesBy_getD (cs : List ℕ) (q : List α) :
    ∀ i < cs.length,
      pySlice q ((cs.take i).sum) ((cs.take (i + 1)).sum) = (slicesBy q cs).getD i [] := by
  induction cs generalizing q with
  | nil => intro i hi; simp at hi
  | cons c cs ih =>
    intro i hi
    cases i with
    | zero => simp [slicesBy, pySlice_zero]
    | succ i =>
      simp only [List.take_succ_cons, List.sum_cons, slicesBy, List.getD_cons_succ]
      rw [pySlice_add]
      exact ih (q.drop c) i (by simpa using hi)

theorem slicesBy_map (f : α → β) (cs : List ℕ) (q : List α) :
    slicesBy (q.map f) cs = (slicesBy q cs).map (List.map f) := by
  induction cs generalizing q with
  | nil => rfl
  | cons c cs ih =>
    simp only [slicesBy, List.map_cons, List.map_take, ← List.map_drop, ih]

theorem slicesBy_flatten_lengths (L : List (List α)) :
    slicesBy L.flatten (L.map List.length) = L := by
  induction L with
  | nil => rfl
  | cons l L ih =>
    simp only [List.flatten_cons, List.map_cons, slicesBy, List.take_left, List.drop_left]
    rw [ih]

theorem pySlice_sublist (q : List α) (b e : ℕ) : (pySlice q b e).Sublist q :=
  ((q.take e).drop_sublist b).trans (q.take_sublist e)

theorem map_getD_range (l : List α) (d : α) :
    (List.range l.length).map (fun i => l.getD i d) = l := by
  apply List.ext_getElem
  · simp
  · intro n h1 h2
    simp only [List.getElem_map, List.getElem_range]
    exact List.getD_eq_getElem l d h2

/-! ## The canonical grouped form of the sorted owner sequence -/

theorem sum_map_ite_of_nodup {u : List ℕ} (x : ℕ) (n : ℕ) (hu : u.Nodup) :
    (u.map (fun v => if v = x then n else 0)).sum = if x ∈ u then n else 0 := by
  induction u with
  | nil => simp
  | cons v u ih =>
    rcases List.nodup_cons.mp hu with ⟨hv, hu'⟩
    simp only [List.map_cons, List.sum_cons, ih hu', List.mem_cons]
    by_cases hvx : v = x
    · subst hvx
      simp [hv]
    · have hxv : ¬(x = v) := fun h => hvx h.symm
      simp [hvx, hxv]

theorem count_flatten_groupedOf (l : List ℕ) (x : ℕ) :
    (groupedOf l).flatten.count x = l.count x := by
  unfold groupedOf
  rw [List.count_flatten, List.map_map]
  have heq : ((fun l' => List.count x l') ∘ fun v => List.replicate (l.count v) v) =
      fun v => if v = x then l.count x else 0 := by
    funext v
    simp only [Function.comp_apply, List.count_replicate, beq_iff_eq]
    by_cases h : v = x
    · subst h; simp
    · simp [h]
  rw [heq, sum_map_ite_of_nodup x (l.count x) (npUnique_nodup l)]
  by_cases hx : x ∈ l
  · simp [mem_npUnique.mpr hx]
  · have : x ∉ npUnique l := fun h => hx (mem_npUnique.mp h)
    simp [this, List.count_eq_zero_of_not_mem hx]

theorem flatten_groupedOf_perm (l : List ℕ) : (groupedOf l).flatten.Perm l :=
  List.perm_iff_count.mpr (fun x => count_flatten_groupedOf l x)

theorem flatten_groupedOf_sorted (l : List ℕ) :
    ((groupedOf l).flatten).Sorted (· ≤ ·) := by
  unfold groupedOf
  rw [List.Sorted, List.pairwise_flatten]
  constructor
  · intro blk hblk
    rcases List.mem_map.mp hblk with ⟨v, _, rfl⟩
    exact List.pairwise_replicate.mpr (Or.inr le_rfl)
  · have := npUnique_sorted l
    refine List.Pairwise.map _ ?_ this
    intro a b hab
    intro x hx y hy
    rw [List.eq_of_mem_replicate hx, List.eq_of_mem_replicate hy]
    exact hab

theorem sorted_perm_eq_flatten_groupedOf {s l : List ℕ}
    (hs : s.Sorted (· ≤ ·)) (hp : s.Perm l) : s = (groupedOf l).flatten :=
  List.eq_of_perm_of_sorted (hp.trans (flatten_groupedOf_perm l).symm) hs
    (flatten_groupedOf_sorted l)

theorem groupedOf_map_length (l : List ℕ) :
    (groupedOf l).map List.length = npCounts l := by
  unfold groupedOf npCounts
  rw [List.map_map]
  simp [Function.comp]

theorem groupedOf_length (l : List ℕ) :
    (groupedOf l).length = (npUnique l).length := List.length_map _ _

theorem groupedOf_getD {l : List ℕ} {i : ℕ} (hi : i < (npUnique l).length) :
    (groupedOf l).getD i [] =
      List.replicate ((npCounts l).getD i 0) ((npUnique l).getD i 0) := by
  have h1 : i < (groupedOf l).length := by rwa [groupedOf_length]
  have h2 : i < (npCounts l).length := by rwa [npCounts_length]
  rw [List.getD_eq_getElem _ _ h1, List.getD_eq_getElem _ _ h2,
    List.getD_eq_getElem _ _ hi]
  unfold groupedOf npCounts
  simp

/-! ## Consequences of the argsort contract -/

theorem IsArgsort.len {a p : List ℕ} (h : IsArgsort a p) : p.length = a.length :=
  h.1.length_eq.trans (List.length_range _)

theorem IsArgsort.perm_map {a p : List ℕ} (h : IsArgsort a p) :
    (p.map (fun i => a.getD i 0)).Perm a := by
  have hp := h.1.map (fun i => a.getD i 0)
  rwa [map_getD_range a 0] at hp

theorem IsArgsort.sortedView_eq {a p : List ℕ} (h : IsArgsort a p) :
    p.map (fun i => a.getD i 0) = (groupedOf a).flatten :=
  sorted_perm_eq_flatten_groupedOf h.2 h.perm_map

theorem pySlice_map (f : α → β) (q : List α) (b e : ℕ) :
    pySlice (q.map f) b e = (pySlice q b e).map f := by
  unfold pySlice
  rw [← List.map_take, ← List.map_drop]

theorem sortedView_slice {a p : List ℕ} (h : IsArgsort a p) {i : ℕ}
    (hi : i < (npUnique a).length) :
    pySlice (p.map (fun j => a.getD j 0))
        (((npCounts a).take i).sum) (((npCounts a).take (i + 1)).sum) =
      List.replicate ((npCounts a).getD i 0) ((npUnique a).getD i 0) := by
  have hlen : i < (npCounts a).length := by rwa [npCounts_length]
  have hsl : slicesBy ((groupedOf a).flatten) (npCounts a) = groupedOf a := by
    rw [← groupedOf_map_length]
    exact slicesBy_flatten_lengths _
  rw [slicesBy_getD (npCounts a) _ i hlen, h.sortedView_eq, hsl]
  exact groupedOf_getD hi

theorem slice_of_argsort {a p : List ℕ} (h : IsArgsort a p) {i : ℕ}
    (hi : i < (npUnique a).length) :
    (pySlice p (((npCounts a).take i).sum) (((npCounts a).take (i + 1)).sum)).map
        (fun j => a.getD j 0) =
      List.replicate ((npCounts a).getD i 0) ((npUnique a).getD i 0) := by
  rw [← pySlice_map]
  exact sortedView_slice h hi

theorem slice_of_argsort_length {a p : List ℕ} (h : IsArgsort a p) {i : ℕ}
    (hi : i < (npUnique a).length) :
    (pySlice p (((npCounts a).take i).sum) (((npCounts a).take (i + 1)).sum)).length =
      (npCounts a).getD i 0 := by
  have := congrArg List.length (slice_of_argsort h hi)
  simpa using this

theorem slice_of_argsort_mem {a p : List ℕ} (h : IsArgsort a p) {i : ℕ}
    (hi : i < (npUnique a).length) {j : ℕ}
    (hj : j ∈ pySlice p (((npCounts a).take i).sum) (((npCounts a).take (i + 1)).sum)) :
    j < a.length ∧ a.getD j 0 = (npUnique a).getD i 0 := by
  constructor
  · have hjp : j ∈ p := (pySlice_sublist p _ _).mem hj
    have := h.1.mem_iff.mp hjp
    exact List.mem_range.mp this
  · have : a.getD j 0 ∈ List.replicate ((npCounts a).getD i 0) ((npUnique a).getD i 0) := by
      rw [← slice_of_argsort h hi]
      exact List.mem_map_of_mem _ hj
    exact List.eq_of_mem_replicate this

/-! ## The send-side regrouping -/

theorem owners_offsets_getD (m : IndexMap) {i : ℕ} (hi : i ≤ (owners_size m).length) :
    (owners_offsets m).getD i 0 = ((owners_size m).take i).sum :=
  npOffsets_getD _ hi

theorem send_buff_idx_eq (m : IndexMap) (p : List ℕ) {i : ℕ}
    (hi : i < (unique_owners m).length) :
    send_buff_idx m p i =
      (pySlice p (((npCounts m.owners).take i).sum)
        (((npCounts m.owners).take (i + 1)).sum)).map (fun j => m.ghosts.getD j 0) := by
  have hlen : i < (owners_size m).length := by
    simpa [owners_size, npCounts_length] using hi
  unfold send_buff_idx
  rw [owners_offsets_getD m (le_of_lt hlen), owners_offsets_getD m hlen]
  rfl

theorem send_buff_idx_all_eq (m : IndexMap) (p : List ℕ) :
    send_buff_idx_all m p =
      (slicesBy p (npCounts m.owners)).map (List.map (fun j => m.ghosts.getD j 0)) := by
  apply List.ext_getElem
  · simp [send_buff_idx_all, length_slicesBy, npCounts_length, unique_owners]
  · intro n h1 h2
    have hn : n < (unique_owners m).length := by
      simpa [send_buff_idx_all] using h1
    have hcs : n < (npCounts m.owners).length := by
      rwa [npCounts_length]
    have hsb : n < (slicesBy p (npCounts m.owners)).length := by
      rwa [length_slicesBy]
    simp only [send_buff_idx_all, List.getElem_map, List.getElem_range]
    rw [send_buff_idx_eq m p hn, slicesBy_getD (npCounts m.owners) p n hcs,
      List.getD_eq_getElem _ _ hsb]

theorem send_buff_flatten_eq (m : IndexMap) (p : List ℕ) (h : IsArgsort m.owners p) :
    (send_buff_idx_all m p).flatten = p.map (fun j => m.ghosts.getD j 0) := by
  rw [send_buff_idx_all_eq m p, ← List.map_flatten,
    flatten_slicesBy (npCounts m.owners) p (by rw [npCounts_sum, h.len])]

theorem send_buff_flatten_perm (m : IndexMap) (p : List ℕ)
    (hwf : m.owners.length = m.ghosts.length) (h : IsArgsort m.owners p) :
    ((send_buff_idx_all m p).flatten).Perm m.ghosts := by
  rw [send_buff_flatten_eq m p h]
  have hp := h.1.map (fun j => m.ghosts.getD j 0)
  rw [hwf] at hp
  rwa [map_getD_range m.ghosts 0] at hp

/-! ## Counting the (index, destination) pairs -/

theorem sum_map_ite_one (D : List β) (p : β → Bool) :
    (D.map (fun d => if p d then 1 else 0)).sum = (D.filter p).length := by
  induction D with
  | nil => simp
  | cons d D ih =>
    by_cases h : p d <;> simp [List.filter_cons, h, ih, Nat.add_comm]

theorem filter_swap_sum (u : List α) (D : List β) (P : α → β → Bool) :
    (u.map (fun r => (D.filter (P r)).length)).sum =
      (D.map (fun d => (u.filter (fun r => P r d)).length)).sum := by
  induction u with
  | nil => simp
  | cons r u ih =>
    simp only [List.map_cons, List.sum_cons, ih]
    have hstep : (D.map (fun d => ((r :: u).filter (fun r' => P r' d)).length)).sum =
        (D.map (fun d =>
          (if P r d then 1 else 0) + (u.filter (fun r' => P r' d)).length)).sum := by
      congr 1
      apply List.map_congr_left
      intro d _
      rw [List.filter_cons]
      by_cases h : P r d <;> simp [h, Nat.add_comm]
    rw [hstep, List.sum_map_add, sum_map_ite_one]

theorem filter_mem_length {u l : List ℕ} (hu : u.Nodup) (hl : ∀ x ∈ l, x ∈ u) :
    (u.filter (fun r => decide (r ∈ l))).length = l.dedup.length := by
  apply List.Perm.length_eq
  apply (List.perm_ext_iff_of_nodup (hu.filter _) (List.nodup_dedup l)).mpr
  intro a
  simp only [List.mem_filter, List.mem_dedup, decide_eq_true_eq]
  constructor
  · rintro ⟨-, h⟩
    exact h
  · intro h
    exact ⟨hl a h, h⟩

theorem mem_getD_mem_flatten {L : List (List ℕ)} {i : ℕ} {x : ℕ}
    (hx : x ∈ L.getD i []) : x ∈ L.flatten := by
  by_cases h : i < L.length
  · rw [List.getD_eq_getElem _ _ h] at hx
    exact List.mem_flatten.mpr ⟨L[i], List.getElem_mem h, hx⟩
  · rw [List.getD_eq_default _ _ (le_of_not_lt h)] at hx
    cases hx

theorem ghostsList_length (m : IndexMap) : (ghostsList m).length = total_pairs m := by
  unfold ghostsList total_pairs
  rw [List.length_flatMap]
  have hmap : (List.map (List.length ∘ fun r => (((List.range m.size_local).filter
        (fun dof => decide (r ∈ m.dest_ranks.getD dof []))).map (fun _ => r)))
        (shared_ranks m)) =
      (shared_ranks m).map (fun r => ((List.range m.size_local).filter
        (fun dof => decide (r ∈ m.dest_ranks.getD dof []))).length) := by
    apply List.map_congr_left
    intro r _
    simp [Function.comp]
  rw [hmap, filter_swap_sum (shared_ranks m) (List.range m.size_local)
    (fun r dof => decide (r ∈ m.dest_ranks.getD dof []))]
  congr 1
  apply List.map_congr_left
  intro dof _
  exact filter_mem_length (npUnique_nodup _)
    (fun x hx => mem_npUnique.mpr (mem_getD_mem_flatten hx))

/-! ## Lemmas about the modelled exchanger -/

theorem getD_map_range (f : ℕ → γ) (n i : ℕ) (d : γ) :
    ((List.range n).map f).getD i d = if i < n then f i else d := by
  by_cases h : i < n
  · have hl : i < ((List.range n).map f).length := by simpa using h
    rw [List.getD_eq_getElem _ _ hl, if_pos h]
    simp
  · rw [List.getD_eq_default _ _ (by simpa using le_of_not_lt h), if_neg h]

theorem fwdRank_buf_length [Zero α] (W : World α) (rd : RankData α) :
    (fwdRank W rd).buf.length = rd.buf.length := by
  simp [fwdRank]

theorem fwdRank_getD_owned [Zero α] (W : World α) (rd : RankData α) {i : ℕ}
    (h : i < rd.size_local ∨ rd.size_local + rd.ghosts.length ≤ i) :
    (fwdRank W rd).buf.getD i 0 = rd.buf.getD i 0 := by
  unfold fwdRank
  rw [getD_map_range]
  by_cases hl : i < rd.buf.length
  · rw [if_pos hl]
    unfold fwdVal
    rcases h with h | h
    · rw [if_pos h]
    · rw [if_neg (by omega), if_neg (by omega)]
  · rw [if_neg hl, List.getD_eq_default _ _ (le_of_not_lt hl)]

theorem scatter_forward_getD [Zero α] (W : World α) (r : ℕ) :
    (scatter_forward W).getD r dfltRank = fwdRank W (W.getD r dfltRank) := by
  by_cases h : r < W.length
  · have hl : r < (scatter_forward W).length := by simpa [scatter_forward] using h
    rw [List.getD_eq_getElem _ _ hl, List.getD_eq_getElem _ _ h]
    simp [scatter_forward]
  · rw [List.getD_eq_default _ _ (by simpa [scatter_forward] using le_of_not_lt h),
      List.getD_eq_default _ _ (le_of_not_lt h)]
    rfl

theorem fwdRank_ghosts_nil [Zero α] (W : World α) (rd : RankData α)
    (h : rd.ghosts = []) : fwdRank W rd = rd := by
  unfold fwdRank
  have hbuf : (List.range rd.buf.length).map (fwdVal W rd) =
      (List.range rd.buf.length).map (fun i => rd.buf.getD i 0) := by
    apply List.map_congr_left
    intro i _
    unfold fwdVal
    by_cases hi : i < rd.size_local
    · rw [if_pos hi]
    · rw [if_neg hi, if_neg (by simp [h])]
  rw [hbuf, map_getD_range]

theorem scatter_reverse_getD [AddCommMonoid α] (W : World α) (r : ℕ) :
    (scatter_reverse W).getD r dfltRank = revRank W r (W.getD r dfltRank) := by
  by_cases h : r < W.length
  · have he : r < W.enum.length := by simpa [List.enum_length] using h
    have hl : r < (scatter_reverse W).length := by
      simpa [scatter_reverse, List.enum_length] using h
    rw [List.getD_eq_getElem _ _ hl, List.getD_eq_getElem _ _ h]
    simp [scatter_reverse, List.getElem_enum]
  · rw [List.getD_eq_default _ _
        (by simpa [scatter_reverse, List.enum_length] using le_of_not_lt h),
      List.getD_eq_default _ _ (le_of_not_lt h)]
    rfl

theorem revContrib_eq_zero [AddCommMonoid α] (W : World α) (r g : ℕ)
    (hin : ∀ sd ∈ W, ∀ k < sd.ghosts.length, sd.owners.getD k 0 ≠ r) :
    revContrib W r g = 0 := by
  unfold revContrib
  apply List.sum_eq_zero
  intro x hx
  rcases List.mem_map.mp hx with ⟨sd, hsd, rfl⟩
  apply List.sum_eq_zero
  intro y hy
  rcases List.mem_map.mp hy with ⟨k, hk, rfl⟩
  have hk' : k < sd.ghosts.length := List.mem_range.mp hk
  rw [if_neg]
  rintro ⟨ho, -⟩
  exact hin sd hsd k hk' ho

theorem revRank_unowned [AddCommMonoid α] (W : World α) (r : ℕ) (rd : RankData α)
    (hin : ∀ sd ∈ W, ∀ k < sd.ghosts.length, sd.owners.getD k 0 ≠ r) :
    revRank W r rd = rd := by
  unfold revRank
  have hbuf : (List.range rd.buf.length).map (revVal W rd r) =
      (List.range rd.buf.length).map (fun i => rd.buf.getD i 0) := by
    apply List.map_congr_left
    intro i _
    unfold revVal
    by_cases hi : i < rd.size_local
    · rw [if_pos hi, revContrib_eq_zero W r _ hin, add_zero]
    · rw [if_neg hi]
  rw [hbuf, map_getD_range]

theorem fwdRank_size_local [Zero α] (W : World α) (rd : RankData α) :
    (fwdRank W rd).size_local = rd.size_local := rfl

theorem fwdRank_range0 [Zero α] (W : World α) (rd : RankData α) :
    (fwdRank W rd).range0 = rd.range0 := rfl

theorem fwdRank_ghosts [Zero α] (W : World α) (rd : RankData α) :
    (fwdRank W rd).ghosts = rd.ghosts := rfl

theorem fwdRank_owners [Zero α] (W : World α) (rd : RankData α) :
    (fwdRank W rd).owners = rd.owners := rfl

theorem fwdVal_stable [Zero α] (W : World α) (h : FwdWF W) {rd : RankData α}
    (hmem : rd ∈ W) (i : ℕ) :
    fwdVal (scatter_forward W) (fwdRank W rd) i = fwdVal W rd i := by
  unfold fwdVal
  simp only [fwdRank_size_local, fwdRank_range0, fwdRank_ghosts, fwdRank_owners]
  by_cases h1 : i < rd.size_local
  · rw [if_pos h1, if_pos h1]
    exact fwdRank_getD_owned W rd (Or.inl h1)
  · rw [if_neg h1, if_neg h1]
    by_cases h2 : i - rd.size_local < rd.ghosts.length
    · rw [if_pos h2, if_pos h2, scatter_forward_getD]
      simp only [fwdRank_range0]
      exact fwdRank_getD_owned W _ (Or.inl (h rd hmem (i - rd.size_local) h2))
    · rw [if_neg h2, if_neg h2]
      exact fwdRank_getD_owned W rd (Or.inr (by omega))

/-! ## Claim theorems -/

/-- C1 (counterexample): the contract of `np.argsort` with the default
`kind='quicksort'` — the kind the code uses — admits an owner-sorted
permutation of the ghost slots in which two slots with equal owner rank do
NOT keep their original ghost-slot order: for `owners = [1, 1]` the result
`[1, 0]` sorts the owners but is not stable, so the code does not guarantee
the stable tie-break the claim asserts. -/
theorem argsort_not_stable_counterexample :
    IsArgsort [1, 1] [1, 0] ∧ ¬ StableByOwner [1, 1] [1, 0] := by
  decide

/-- C1 (amended): for every admissible `np.argsort(owners)` result
`owners_idx`, the owner-sorted view of the ghost slots is grouped exactly by
the per-owner receive slices: `owners_offsets` is the exclusive prefix-sum
table of the per-owner counts `owners_size`, and the slice
`[owners_offsets[i], owners_offsets[i+1])` of the owner-sorted view consists
of exactly `owners_size[i]` copies of `unique_owners[i]`.  No tie-break
order among slots with equal owner is guaranteed (the default argsort kind
is not stable). -/
theorem owner_sort_prefix_sum_slices (m : IndexMap) (p : List ℕ)
    (h : IsArgsort m.owners p) :
    (∀ i ≤ (owners_size m).length,
      (owners_offsets m).getD i 0 = ((owners_size m).take i).sum) ∧
    (∀ i < (unique_owners m).length,
      pySlice (p.map (fun j => m.owners.getD j 0))
          ((owners_offsets m).getD i 0) ((owners_offsets m).getD (i + 1) 0) =
        List.replicate ((owners_size m).getD i 0) ((unique_owners m).getD i 0)) := by
  constructor
  · intro i hi
    exact owners_offsets_getD m hi
  · intro i hi
    have hlen : i < (owners_size m).length := by
      simpa [owners_size, npCounts_length] using hi
    rw [owners_offsets_getD m (le_of_lt hlen), owners_offsets_getD m hlen]
    exact sortedView_slice h hi

/-- C1 (witness): the amended grouping theorem instantiated at a concrete
index map with a repeated owner and a non-stable admissible argsort. -/
theorem owner_sort_prefix_sum_slices_witness :
    IsArgsort (IndexMap.owners ⟨0, 0, [], [2, 1, 2], []⟩) [1, 2, 0] ∧
    ((∀ i ≤ (owners_size ⟨0, 0, [], [2, 1, 2], []⟩).length,
        (owners_offsets ⟨0, 0, [], [2, 1, 2], []⟩).getD i 0 =
          ((owners_size ⟨0, 0, [], [2, 1, 2], []⟩).take i).sum) ∧
     (∀ i < (unique_owners ⟨0, 0, [], [2, 1, 2], []⟩).length,
        pySlice (([1, 2, 0] : List ℕ).map
            (fun j => (IndexMap.owners ⟨0, 0, [], [2, 1, 2], []⟩).getD j 0))
          ((owners_offsets ⟨0, 0, [], [2, 1, 2], []⟩).getD i 0)
          ((owners_offsets ⟨0, 0, [], [2, 1, 2], []⟩).getD (i + 1) 0) =
        List.replicate ((owners_size ⟨0, 0, [], [2, 1, 2], []⟩).getD i 0)
          ((unique_owners ⟨0, 0, [], [2, 1, 2], []⟩).getD i 0))) :=
  ⟨by decide, owner_sort_prefix_sum_slices ⟨0, 0, [], [2, 1, 2], []⟩ [1, 2, 0] (by decide)⟩

/-- C2: plan construction is deterministic and pure — a function of exactly
the IndexMap inputs it reads (`owners`, `ghosts`, `size_local`,
`index_to_dest_ranks`): two maps agreeing on those fields (even if they
differ elsewhere, e.g. in `local_range`) produce identical groupings,
sizes, offsets and permutations for the same argsort result; in particular
two builds from one identical IndexMap agree. -/
theorem buildPlan_deterministic (m1 m2 : IndexMap) (p : List ℕ)
    (h1 : m1.owners = m2.owners) (h2 : m1.ghosts = m2.ghosts)
    (h3 : m1.size_local = m2.size_local) (h4 : m1.dest_ranks = m2.dest_ranks) :
    buildPlan m1 p = buildPlan m2 p := by
  cases m1
  cases m2
  dsimp only at h1 h2 h3 h4
  subst h1
  subst h2
  subst h3
  subst h4
  rfl

/-- C2 (witness): two concrete maps agreeing on all plan inputs but with
different `local_range` starts build the same plan. -/
theorem buildPlan_deterministic_witness :
    IndexMap.owners ⟨1, 0, [7], [2], [[2]]⟩ = IndexMap.owners ⟨1, 99, [7], [2], [[2]]⟩ ∧
    IndexMap.ghosts ⟨1, 0, [7], [2], [[2]]⟩ = IndexMap.ghosts ⟨1, 99, [7], [2], [[2]]⟩ ∧
    IndexMap.size_local ⟨1, 0, [7], [2], [[2]]⟩ =
      IndexMap.size_local ⟨1, 99, [7], [2], [[2]]⟩ ∧
    IndexMap.dest_ranks ⟨1, 0, [7], [2], [[2]]⟩ =
      IndexMap.dest_ranks ⟨1, 99, [7], [2], [[2]]⟩ ∧
    buildPlan ⟨1, 0, [7], [2], [[2]]⟩ [0] = buildPlan ⟨1, 99, [7], [2], [[2]]⟩ [0] :=
  ⟨rfl, rfl, rfl, rfl, buildPlan_deterministic _ _ [0] rfl rfl rfl rfl⟩

/-- C3 (counterexample): an asymmetric world — rank 0 ghosts global index 1
declaring rank 1 as owner, but rank 1's destination-rank record does not
report that index as ghosted by rank 0 — on which plan construction
nevertheless succeeds, producing an ordinary plan: the build section has no
InvalidTopology failure path. -/
theorem no_invalid_topology_counterexample :
    ¬ SymmetricMaps [⟨1, 0, [1], [1], [[]]⟩, ⟨1, 1, [], [], [[]]⟩] ∧
    buildPlan (([⟨1, 0, [1], [1], [[]]⟩, ⟨1, 1, [], [], [[]]⟩] :
        List IndexMap).getD 0 default) [0] =
      ⟨[1], [1], [0, 1], [0], [[1]], [], [], [0]⟩ := by
  constructor
  · decide
  · decide

/-- C3 (amended): plan construction performs no ownership-consistency check
at all: for every world of index maps and every rank — with no symmetry
hypothesis — the build completes, with the per-owner sizes summing to the
full number of ghost slots and the offset table ending at that total.
Asymmetric metadata is not detected at plan-build time; there is no
InvalidTopology error in the code. -/
theorem buildPlan_no_asymmetry_check (ms : List IndexMap) (r : ℕ) (p : List ℕ) :
    ((buildPlan (ms.getD r default) p).owners_size).sum =
      (ms.getD r default).owners.length ∧
    ((buildPlan (ms.getD r default) p).owners_offsets).getD
        ((buildPlan (ms.getD r default) p).owners_size).length 0 =
      (ms.getD r default).owners.length := by
  constructor
  · exact npCounts_sum _
  · exact (npOffsets_last (owners_size (ms.getD r default))).trans
      (npCounts_sum _)

/-- C4: the `copy_range` device kernel is guarded: for any grid/block
configuration, the work-item with global index
`idx = threadIdx + blockIdx * blockDim` writes `out_[idx] = in_[idx + begin]`
exactly when `idx < end - begin`, and changes no other position; a work-item
with `idx ≥ end - begin` performs no write at all. -/
theorem copy_range_guarded (in_ out_ : ℕ → γ) (b e blockDim tid bid : ℕ)
    (j : ℕ) :
    copy_range in_ out_ b e blockDim tid bid j =
      if tid + bid * blockDim < e - b ∧ j = tid + bid * blockDim then
        in_ (j + b)
      else out_ j := by
  simp only [copy_range]
  by_cases h1 : tid + bid * blockDim < e - b
  · rw [if_pos h1]
    by_cases h2 : j = tid + bid * blockDim
    · subst h2
      rw [if_pos ⟨h1, rfl⟩, Function.update_same]
    · rw [if_neg (fun hc => h2 hc.2), Function.update_noteq h2]
  · rw [if_neg h1, if_neg (fun hc => h1 hc.1)]

/-- C5: within one exchange, every request is posted before any request is
awaited: in the communication trace everything before the last event is a
non-blocking post, and the single `Waitall` is the last event.  (The send
side is vacuous in the source — the `Isend` call is commented out — so the
posted requests are the per-rank receives, all of which precede the wait.) -/
theorem posts_before_wait (m : IndexMap) :
    (∀ ev ∈ (exchangeTrace m).dropLast, ev ≠ Event.waitAll) ∧
    (exchangeTrace m).getLast? = some Event.waitAll := by
  constructor
  · intro ev hev
    unfold exchangeTrace at hev
    rw [List.dropLast_concat] at hev
    rcases List.mem_map.mp hev with ⟨i, _, rfl⟩
    simp
  · unfold exchangeTrace
    rw [List.getLast?_concat]

/-- C6: the plan groupings partition the work exactly: the per-owner
receive sizes sum to the number of ghost slots of the map, and the
per-destination send sizes sum to the total number of
(local index, destination rank) pairs. -/
theorem plan_sizes_partition (m : IndexMap)
    (hwf : m.owners.length = m.ghosts.length) :
    (owners_size m).sum = m.ghosts.length ∧
    (ghosts_size m).sum = total_pairs m := by
  constructor
  · rw [← hwf]
    exact npCounts_sum m.owners
  · rw [show ghosts_size m = npCounts (ghostsList m) from rfl, npCounts_sum,
      ghostsList_length]

/-- C6 (witness): the partition sums at a concrete two-dof map with two
ghost slots and three (index, destination) pairs. -/
theorem plan_sizes_partition_witness :
    (IndexMap.owners ⟨2, 0, [5, 9], [1, 1], [[1], [1, 2]]⟩).length =
      (IndexMap.ghosts ⟨2, 0, [5, 9], [1, 1], [[1], [1, 2]]⟩).length ∧
    ((owners_size ⟨2, 0, [5, 9], [1, 1], [[1], [1, 2]]⟩).sum =
      (IndexMap.ghosts ⟨2, 0, [5, 9], [1, 1], [[1], [1, 2]]⟩).length ∧
     (ghosts_size ⟨2, 0, [5, 9], [1, 1], [[1], [1, 2]]⟩).sum =
      total_pairs ⟨2, 0, [5, 9], [1, 1], [[1], [1, 2]]⟩) :=
  ⟨rfl, plan_sizes_partition ⟨2, 0, [5, 9], [1, 1], [[1], [1, 2]]⟩ rfl⟩

/-- C7 (partly modelled from the spec): a rank whose map has zero ghost
slots and zero destination ranks performs a no-op exchange: its trace posts
no request (the `Waitall` over the empty request list returns immediately),
and — in the spec-modelled exchanger — neither `scatter_forward` nor
`scatter_reverse` changes any entry of its value buffer. -/
theorem noop_exchange [AddCommMonoid γ] (m : IndexMap)
    (hm : m.dest_ranks.flatten = []) (ho : m.owners = [])
    (W : World γ) (r : ℕ)
    (hg : (W.getD r dfltRank).ghosts = [])
    (hin : ∀ sd ∈ W, ∀ k < sd.ghosts.length, sd.owners.getD k 0 ≠ r) :
    exchangeTrace m = [Event.waitAll] ∧
    (scatter_forward W).getD r dfltRank = W.getD r dfltRank ∧
    (scatter_reverse W).getD r dfltRank = W.getD r dfltRank := by
  refine ⟨?_, ?_, ?_⟩
  · unfold exchangeTrace unique_ghosts ghostsList shared_ranks
    rw [hm]
    rfl
  · rw [scatter_forward_getD]
    exact fwdRank_ghosts_nil W _ hg
  · rw [scatter_reverse_getD]
    exact revRank_unowned W r _ hin

/-- C7 (witness): the no-op exchange at a one-rank world with one owned
value and no ghost metadata. -/
theorem noop_exchange_witness :
    (IndexMap.dest_ranks ⟨1, 0, [], [], [[]]⟩).flatten = [] ∧
    IndexMap.owners ⟨1, 0, [], [], [[]]⟩ = [] ∧
    (([⟨1, 0, [], [], [(3 : ℤ)]⟩] : World ℤ).getD 0 dfltRank).ghosts = [] ∧
    (∀ sd ∈ ([⟨1, 0, [], [], [(3 : ℤ)]⟩] : World ℤ), ∀ k < sd.ghosts.length,
      sd.owners.getD k 0 ≠ 0) ∧
    (exchangeTrace ⟨1, 0, [], [], [[]]⟩ = [Event.waitAll] ∧
      (scatter_forward ([⟨1, 0, [], [], [(3 : ℤ)]⟩] : World ℤ)).getD 0 dfltRank =
        ([⟨1, 0, [], [], [(3 : ℤ)]⟩] : World ℤ).getD 0 dfltRank ∧
      (scatter_reverse ([⟨1, 0, [], [], [(3 : ℤ)]⟩] : World ℤ)).getD 0 dfltRank =
        ([⟨1, 0, [], [], [(3 : ℤ)]⟩] : World ℤ).getD 0 dfltRank) :=
  ⟨rfl, rfl, rfl, by decide,
    noop_exchange ⟨1, 0, [], [], [[]]⟩ rfl rfl [⟨1, 0, [], [], [(3 : ℤ)]⟩] 0 rfl
      (by decide)⟩

/-- C8 (counterexample): with the sum reduction the spec gives as the
example semantics of the reverse direction, `scatter_reverse` is NOT
idempotent: on a two-rank world where rank 1 holds ghost value 7 for rank
0's owned value 5, one reverse yields 12 at the owner, a second reverse
yields 19 — the second call accumulates the ghost contribution again. -/
theorem scatter_reverse_not_idempotent :
    scatter_reverse (scatter_reverse
        ([⟨1, 0, [], [], [(5 : ℤ)]⟩, ⟨0, 1, [0], [0], [7]⟩] : World ℤ)) ≠
      scatter_reverse ([⟨1, 0, [], [], [(5 : ℤ)]⟩, ⟨0, 1, [0], [0], [7]⟩] : World ℤ) := by
  decide

/-- C8 (amended): `scatter_forward` is idempotent: for every world whose
ghost metadata points into the owners' owned blocks, a second forward
exchange with unchanged owned values reproduces exactly the ghost values of
the first — there is no hidden accumulation in the forward direction.
(`scatter_reverse` with the spec's example sum reduction is not idempotent:
a second call adds the ghost contributions to the owned slots again, as the
counterexample shows; reverse idempotence would require overwrite
semantics.) -/
theorem scatter_forward_idempotent [Zero γ] (W : World γ) (h : FwdWF W) :
    scatter_forward (scatter_forward W) = scatter_forward W := by
  apply List.ext_getElem
  · simp [scatter_forward]
  · intro r h1 h2
    rw [← List.getD_eq_getElem _ dfltRank h1, ← List.getD_eq_getElem _ dfltRank h2,
      scatter_forward_getD (scatter_forward W) r, scatter_forward_getD W r]
    have hrW : r < W.length := by simpa [scatter_forward] using h2
    have hmem : W.getD r dfltRank ∈ W := by
      rw [List.getD_eq_getElem _ _ hrW]
      exact List.getElem_mem hrW
    refine RankData.ext rfl rfl rfl rfl ?_
    show (List.range (fwdRank W (W.getD r dfltRank)).buf.length).map
        (fwdVal (scatter_forward W) (fwdRank W (W.getD r dfltRank))) =
      (List.range ((W.getD r dfltRank)).buf.length).map
        (fwdVal W (W.getD r dfltRank))
    rw [fwdRank_buf_length]
    exact List.map_congr_left (fun i _ => fwdVal_stable W h hmem i)

/-- C8 (witness): forward idempotence at the spec's two-rank scenario world
(rank 0 owns values 10, 20, 30 and ghosts rank 1's index 3; rank 1 owns
40, 50 and ghosts rank 0's index 0). -/
theorem scatter_forward_idempotent_witness :
    FwdWF ([⟨3, 0, [3], [1], [(10 : ℤ), 20, 30, 0]⟩,
        ⟨2, 3, [0], [0], [40, 50, 0]⟩] : World ℤ) ∧
    scatter_forward (scatter_forward
        ([⟨3, 0, [3], [1], [(10 : ℤ), 20, 30, 0]⟩,
          ⟨2, 3, [0], [0], [40, 50, 0]⟩] : World ℤ)) =
      scatter_forward ([⟨3, 0, [3], [1], [(10 : ℤ), 20, 30, 0]⟩,
          ⟨2, 3, [0], [0], [40, 50, 0]⟩] : World ℤ) :=
  ⟨by decide, scatter_forward_idempotent _ (by decide)⟩

/-- C9: the per-owner send buffers are a correct regrouping of the ghost
list: buffer `i` has exactly `owners_size[i]` entries, each of its entries
is a global ghost index whose recorded owner is `unique_owners[i]`, and the
concatenation of all the buffers is a permutation of `imap.ghosts`. -/
theorem send_buffers_regroup (m : IndexMap) (p : List ℕ)
    (hwf : m.owners.length = m.ghosts.length) (h : IsArgsort m.owners p) :
    (∀ i < (unique_owners m).length,
      (send_buff_idx m p i).length = (owners_size m).getD i 0) ∧
    (∀ i < (unique_owners m).length, ∀ x ∈ send_buff_idx m p i,
      ∃ k, k < m.ghosts.length ∧ x = m.ghosts.getD k 0 ∧
        m.owners.getD k 0 = (unique_owners m).getD i 0) ∧
    ((send_buff_idx_all m p).flatten).Perm m.ghosts := by
  refine ⟨?_, ?_, send_buff_flatten_perm m p hwf h⟩
  · intro i hi
    rw [send_buff_idx_eq m p hi, List.length_map]
    exact slice_of_argsort_length h hi
  · intro i hi x hx
    rw [send_buff_idx_eq m p hi] at hx
    rcases List.mem_map.mp hx with ⟨j, hj, rfl⟩
    have hja := slice_of_argsort_mem h hi hj
    refine ⟨j, ?_, rfl, hja.2⟩
    rw [← hwf]
    exact hja.1

/-- C9 (witness): the regrouping at a concrete map with three ghosts owned
by two ranks, using a non-stable admissible argsort result. -/
theorem send_buffers_regroup_witness :
    (IndexMap.owners ⟨0, 0, [10, 11, 12], [2, 1, 2], []⟩).length =
      (IndexMap.ghosts ⟨0, 0, [10, 11, 12], [2, 1, 2], []⟩).length ∧
    IsArgsort (IndexMap.owners ⟨0, 0, [10, 11, 12], [2, 1, 2], []⟩) [1, 2, 0] ∧
    ((∀ i < (unique_owners ⟨0, 0, [10, 11, 12], [2, 1, 2], []⟩).length,
        (send_buff_idx ⟨0, 0, [10, 11, 12], [2, 1, 2], []⟩ [1, 2, 0] i).length =
          (owners_size ⟨0, 0, [10, 11, 12], [2, 1, 2], []⟩).getD i 0) ∧
     (∀ i < (unique_owners ⟨0, 0, [10, 11, 12], [2, 1, 2], []⟩).length,
       ∀ x ∈ send_buff_idx ⟨0, 0, [10, 11, 12], [2, 1, 2], []⟩ [1, 2, 0] i,
        ∃ k, k < (IndexMap.ghosts ⟨0, 0, [10, 11, 12], [2, 1, 2], []⟩).length ∧
          x = (IndexMap.ghosts ⟨0, 0, [10, 11, 12], [2, 1, 2], []⟩).getD k 0 ∧
          (IndexMap.owners ⟨0, 0, [10, 11, 12], [2, 1, 2], []⟩).getD k 0 =
            (unique_owners ⟨0, 0, [10, 11, 12], [2, 1, 2], []⟩).getD i 0) ∧
     ((send_buff_idx_all ⟨0, 0, [10, 11, 12], [2, 1, 2], []⟩ [1, 2, 0]).flatten).Perm
        (IndexMap.ghosts ⟨0, 0, [10, 11, 12], [2, 1, 2], []⟩)) :=
  ⟨rfl, by decide,
    send_buffers_regroup ⟨0, 0, [10, 11, 12], [2, 1, 2], []⟩ [1, 2, 0] rfl (by decide)⟩

/-- C10: the received global indices are converted to local owned slots by
plain int64 subtraction of `local_range[0]`, with no bounds check; when
every received index lies in this rank's local range, every resulting slot
lies in `[0, nlocal)`. -/
theorem ghosts_idx_plain_subtraction (recv : List ℤ) (r0 : ℤ) (nlocal : ℕ) :
    (∀ k < recv.length, (ghosts_idx recv r0).getD k 0 = recv.getD k 0 - r0) ∧
    ((∀ k < recv.length, r0 ≤ recv.getD k 0 ∧ recv.getD k 0 < r0 + nlocal) →
      ∀ k < recv.length,
        0 ≤ (ghosts_idx recv r0).getD k 0 ∧
          (ghosts_idx recv r0).getD k 0 < nlocal) := by
  have hval : ∀ k < recv.length,
      (ghosts_idx recv r0).getD k 0 = recv.getD k 0 - r0 := by
    intro k hk
    unfold ghosts_idx
    have hl : k < (recv.map (fun g => g - r0)).length := by simpa using hk
    rw [List.getD_eq_getElem _ _ hl, List.getD_eq_getElem _ _ hk]
    simp
  refine ⟨hval, ?_⟩
  intro hpre k hk
  rw [hval k hk]
  have := hpre k hk
  omega

/-- C10 (witness): the in-range consequence at a concrete receive buffer
`[5, 6]` with `local_range[0] = 4` and `nlocal = 3`. -/
theorem ghosts_idx_plain_subtraction_witness :
    (∀ k < ([(5 : ℤ), 6] : List ℤ).length,
      (4 : ℤ) ≤ ([(5 : ℤ), 6] : List ℤ).getD k 0 ∧
        ([(5 : ℤ), 6] : List ℤ).getD k 0 < 4 + (3 : ℕ)) ∧
    (∀ k < ([(5 : ℤ), 6] : List ℤ).length,
      0 ≤ (ghosts_idx [5, 6] 4).getD k 0 ∧ (ghosts_idx [5, 6] 4).getD k 0 < 3) :=
  ⟨by decide, (ghosts_idx_plain_subtraction [5, 6] 4 3).2 (by decide)⟩

/-- C5 (witness): the trace shape at a concrete map with one destination
rank ghosting both owned indices. -/
theorem posts_before_wait_witness :
    (∀ ev ∈ (exchangeTrace ⟨2, 0, [], [], [[1], [1]]⟩).dropLast,
      ev ≠ Event.waitAll) ∧
    (exchangeTrace ⟨2, 0, [], [], [[1], [1]]⟩).getLast? = some Event.waitAll :=
  posts_before_wait ⟨2, 0, [], [], [[1], [1]]⟩
